import Mathlib

set_option maxRecDepth 8000

/-!
Verification of the piv-p256 recipient-stanza format of age-plugin-yubikey
(`src/format.rs`): the stanza codec (base64 no-pad arguments, raw binary
body), SEC1 compressed-point validation, and the file-key wrap protocol.
Bytes are modelled as natural numbers below 256 and byte strings as lists
of naturals.
-/

/-- HKDF domain-separation label: the ASCII bytes of "piv-p256"
(`STANZA_KEY_LABEL` in `format.rs`). -/
def STANZA_KEY_LABEL : List Nat := [0x70, 0x69, 0x76, 0x2d, 0x70, 0x32, 0x35, 0x36]

/-- Length of the recipient tag (`TAG_BYTES` in `format.rs`). -/
def TAG_BYTES : Nat := 4

/-- Length of a compressed ephemeral public key (`EPK_BYTES` in `format.rs`). -/
def EPK_BYTES : Nat := 33

/-- Length of the wrapped file key (`ENCRYPTED_FILE_KEY_BYTES` in `format.rs`). -/
def ENCRYPTED_FILE_KEY_BYTES : Nat := 32

/-- Modelled from the spec: the fixed ASCII stanza tag constant `STANZA_TAG`,
declared in the crate root outside `src/format.rs`; the spec describes it as
"fixed ASCII identifier constant for this variant". Its exact text is
irrelevant to the claims, which speak only of "the fixed constant". -/
def STANZA_TAG : String := "piv-p256"

/-- The standard base64 alphabet as ASCII byte values
(`base64::STANDARD_NO_PAD` character set: A-Z, a-z, 0-9, +, /). -/
def b64Chars : List Nat :=
  [65, 66, 67, 68, 69, 70, 71, 72, 73, 74, 75, 76, 77, 78, 79, 80, 81, 82,
   83, 84, 85, 86, 87, 88, 89, 90,
   97, 98, 99, 100, 101, 102, 103, 104, 105, 106, 107, 108, 109, 110, 111,
   112, 113, 114, 115, 116, 117, 118, 119, 120, 121, 122,
   48, 49, 50, 51, 52, 53, 54, 55, 56, 57, 43, 47]

/-- Encoding of one 6-bit group to its base64 character byte. -/
def encodeSextet (n : Nat) : Nat := b64Chars.getD n 0

/-- Decoding of one base64 character byte back to its 6-bit value;
`none` for a byte outside the alphabet. -/
def decodeChar (c : Nat) : Option Nat := b64Chars.findIdx? (fun x => x = c)

/-- base64 (standard alphabet, no padding) encoding of a byte list, giving
the ASCII bytes of the encoded text (`base64::encode_config` with
`base64::STANDARD_NO_PAD`). -/
def base64Encode : List Nat → List Nat
  | b1 :: b2 :: b3 :: rest =>
    encodeSextet ((b1 * 65536 + b2 * 256 + b3) / 262144) ::
      encodeSextet ((b1 * 65536 + b2 * 256 + b3) / 4096 % 64) ::
      encodeSextet ((b1 * 65536 + b2 * 256 + b3) / 64 % 64) ::
      encodeSextet ((b1 * 65536 + b2 * 256 + b3) % 64) :: base64Encode rest
  | [b1, b2] =>
    [encodeSextet ((b1 * 256 + b2) / 1024), encodeSextet ((b1 * 256 + b2) / 16 % 64),
     encodeSextet ((b1 * 256 + b2) % 16 * 4)]
  | [b1] => [encodeSextet (b1 / 4), encodeSextet (b1 % 4 * 16)]
  | [] => []

/-- base64 decoding of ASCII bytes under the no-padding configuration
(`base64::decode_config` semantics with `base64::STANDARD_NO_PAD`): a
character outside the alphabet, an input length of 1 mod 4, or a final
character with nonzero trailing bits is an error. -/
def base64Decode : List Nat → Option (List Nat)
  | [] => some []
  | [_] => none
  | [c1, c2] =>
    match decodeChar c1, decodeChar c2 with
    | some d1, some d2 =>
      if d2 % 16 = 0 then some [d1 * 4 + d2 / 16] else none
    | _, _ => none
  | [c1, c2, c3] =>
    match decodeChar c1, decodeChar c2, decodeChar c3 with
    | some d1, some d2, some d3 =>
      if d3 % 4 = 0 then
        some [(d1 * 4096 + d2 * 64 + d3) / 1024, (d1 * 4096 + d2 * 64 + d3) / 4 % 256]
      else none
    | _, _, _ => none
  | c1 :: c2 :: c3 :: c4 :: rest =>
    match decodeChar c1, decodeChar c2, decodeChar c3, decodeChar c4 with
    | some d1, some d2, some d3, some d4 =>
      (base64Decode rest).map
        fun tail =>
          (d1 * 262144 + d2 * 4096 + d3 * 64 + d4) / 65536 ::
            (d1 * 262144 + d2 * 4096 + d3 * 64 + d4) / 256 % 256 ::
            (d1 * 262144 + d2 * 4096 + d3 * 64 + d4) % 256 :: tail
    | _, _, _, _ => none

/-- Modular exponentiation by repeated squaring, driven by explicit fuel
(sufficient whenever the fuel exceeds the bit length of the exponent). -/
def powModAux : Nat → Nat → Nat → Nat → Nat
  | 0, _, _, _ => 1
  | fuel + 1, b, e, m =>
    if e = 0 then 1
    else
      let r := powModAux fuel (b * b % m) (e / 2) m
      if e % 2 = 1 then r * b % m else r

/-- Modular exponentiation; 300 squaring rounds cover every exponent used
in the P-256 field. -/
def powMod (b e m : Nat) : Nat := powModAux 300 b e m

/-- Modelled from the spec: the P-256 base-field prime of the collaborator
curve library (2^256 - 2^224 + 2^192 + 2^96 - 1). -/
def p256P : Nat :=
  0xffffffff00000001000000000000000000000000ffffffffffffffffffffffff

/-- Modelled from the spec: the P-256 curve coefficient b of the
collaborator curve library. -/
def p256B : Nat :=
  0x5ac635d8aa3a93e7b3ebbd55769886bc651d06b0cc53b0f63bce3c3e27d2604b

/-- Right-hand side of the P-256 curve equation, x^3 - 3x + b in the field
(with -3 represented as p - 3). -/
def curveRhs (x : Nat) : Nat := (x * x * x + (p256P - 3) * x + p256B) % p256P

/-- Candidate square root in the P-256 field: a^((p+1)/4), valid because the
prime is 3 mod 4; decompression verifies the candidate by squaring. -/
def sqrtCand (a : Nat) : Nat := powMod a ((p256P + 1) / 4) p256P

/-- Big-endian interpretation of a byte list as a natural number. -/
def bytesToNatBE (bs : List Nat) : Nat := bs.foldl (fun acc b => acc * 256 + b) 0

/-- Big-endian encoding of a natural number into a fixed number of bytes. -/
def natToBytesBE : Nat → Nat → List Nat
  | 0, _ => []
  | len + 1, n => natToBytesBE len (n / 256) ++ [n % 256]

/-- Modelled from the spec: SEC1 point decompression as performed by the
collaborator curve library (`EncodedPoint::decompress`): the encoding must
be a sign byte 2 or 3 followed by 32 big-endian x-coordinate bytes, the
x-coordinate must be a canonical field element (below the prime), and the
curve equation right-hand side must have a square root, obtained as the
(p+1)/4 power and verified by squaring; the root with parity matching the
sign byte is the y-coordinate. -/
def decompressPoint (bytes : List Nat) : Option (Nat × Nat) :=
  match bytes with
  | t :: xs =>
    if (t = 2 ∨ t = 3) ∧ xs.length = 32 then
      let x := bytesToNatBE xs
      if x < p256P then
        let r := curveRhs x
        let s := sqrtCand r
        if s * s % p256P = r then
          some (x, if s % 2 = t % 2 then s else (p256P - s) % p256P)
        else none
      else none
    else none
  | [] => none

/-- Modelled from the spec: `p256::EncodedPoint::from_bytes` structural
validation (SEC1): the tag byte dictates the length — identity (tag 0, no
coordinate), compressed (tag 2 or 3, 32 coordinate bytes), uncompressed
(tag 4, 64 coordinate bytes); anything else is rejected. Returns the bytes
unchanged on success. -/
def sec1FromBytes (bytes : List Nat) : Option (List Nat) :=
  match bytes with
  | [] => none
  | t :: rest =>
    if t = 0 ∧ rest.length = 0 then some bytes
    else if (t = 2 ∨ t = 3) ∧ rest.length = 32 then some bytes
    else if t = 4 ∧ rest.length = 64 then some bytes
    else none

/-- Modelled from the spec: `EncodedPoint::is_compressed` — the tag byte is
2 or 3. -/
def isCompressed (bytes : List Nat) : Bool :=
  match bytes with
  | t :: _ => t == 2 || t == 3
  | [] => false

/-- The ephemeral key bytes in a piv-p256 stanza: a compressed SEC-1
encoding of a valid point (`EphemeralKeyBytes` in `format.rs`, wrapping a
`p256::EncodedPoint`). -/
structure EphemeralKeyBytes where
  bytes : List Nat
deriving DecidableEq, Repr

/-- EphemeralKeyBytes::from_bytes in `format.rs`: run the structural SEC1
parse, then require a compressed encoding that decompresses. -/
def EphemeralKeyBytes.from_bytes (bytes : List Nat) : Option EphemeralKeyBytes :=
  (sec1FromBytes bytes).bind fun encoded =>
    if isCompressed encoded && (decompressPoint encoded).isSome then
      some ⟨encoded⟩
    else none

/-- EphemeralKeyBytes::decompress in `format.rs`; `none` models the
`expect` panic branch, documented as unreachable by construction. -/
def EphemeralKeyBytes.decompress (e : EphemeralKeyBytes) : Option (Nat × Nat) :=
  decompressPoint e.bytes

/-- Membership of an affine pair in the P-256 curve: the curve equation
holds in the field. -/
def onCurve (x y : Nat) : Prop := y * y % p256P = curveRhs x

/-- Decompressibility of an x-coordinate: the candidate square root of the
curve equation right-hand side verifies when squared (this is the check
performed by the collaborator library's decompression). -/
def xDecompressible (x : Nat) : Prop :=
  sqrtCand (curveRhs x) * sqrtCand (curveRhs x) % p256P = curveRhs x

/-- Modelled from the spec: `p256::PublicKey` of the collaborator curve
library — a valid affine curve point (the spec's "underlying curve point"
capability). `hcurve` is the curve equation; `hdec` records that the
library's decompression of its x-coordinate succeeds (the square-root
candidate verifies), which holds for every on-curve x since the prime is
3 mod 4; the model carries this operational guarantee as part of the
invariant. -/
structure PublicKey where
  x : Nat
  y : Nat
  hx : x < p256P
  hy : y < p256P
  hcurve : onCurve x y
  hdec : xDecompressible x

/-- EphemeralKeyBytes::from_public_key in `format.rs`: the trusted
construction path, `epk.to_encoded_point(true)` — the SEC1 compressed
encoding (sign byte 2 for even y, 3 for odd y, then the x-coordinate
big-endian). -/
def EphemeralKeyBytes.from_public_key (epk : PublicKey) : EphemeralKeyBytes :=
  ⟨(2 + epk.y % 2) :: natToBytesBE 32 epk.x⟩

/-- Modelled from the spec: the external stanza collaborator type
(`age_core::format::Stanza`): a tag string, an ordered list of textual
arguments (each kept as its byte sequence), and a binary body. -/
structure Stanza where
  tag : String
  args : List (List Nat)
  body : List Nat
deriving DecidableEq, Repr

/-- The semantic payload of a piv-p256 stanza (`RecipientLine` in
`format.rs`). -/
structure RecipientLine where
  tag : List Nat
  epk_bytes : EphemeralKeyBytes
  encrypted_file_key : List Nat
deriving DecidableEq, Repr

/-- The From-RecipientLine-for-Stanza conversion in `format.rs`: the fixed
stanza tag, the base64 no-pad encodings of the 4-byte tag and the 33-byte
compressed point as the two arguments, and the raw ciphertext as body. -/
def RecipientLine.toStanza (r : RecipientLine) : Stanza :=
  { tag := STANZA_TAG
    args := [base64Encode r.tag, base64Encode r.epk_bytes.bytes]
    body := r.encrypted_file_key }

/-- The base64_arg helper inside from_stanza, generalised over the decoder
so that "rejected without invoking the decoder" is expressible: preflight
the exact no-pad character count for `bufLen` output bytes, run the decoder
into a zero-initialised `bufLen`-byte buffer (output larger than the buffer
is a decoder error), and return the buffer. -/
def base64ArgWith (dec : List Nat → Option (List Nat)) (arg : List Nat)
    (bufLen : Nat) : Option (List Nat) :=
  if arg.length ≠ (4 * bufLen + 2) / 3 then none
  else
    match dec arg with
    | none => none
    | some ds =>
      if ds.length ≤ bufLen then some (ds ++ List.replicate (bufLen - ds.length) 0)
      else none

/-- base64_arg in `format.rs`, instantiated with the real base64 no-pad
decoder. -/
def base64_arg (arg : List Nat) (bufLen : Nat) : Option (List Nat) :=
  base64ArgWith base64Decode arg bufLen

/-- The slice pattern match over the argument list inside from_stanza: with
exactly two arguments it attempts both decodings (tag through base64_arg,
ephemeral point through base64_arg then point validation); any other
argument count yields the pair of failures. -/
def fromStanzaArgs (args : List (List Nat)) :
    Option (List Nat) × Option EphemeralKeyBytes :=
  match args with
  | [tag, epk_bytes] =>
    (base64_arg tag TAG_BYTES,
     (base64_arg epk_bytes EPK_BYTES).bind EphemeralKeyBytes.from_bytes)
  | _ => (none, none)

/-- The checked conversion of the stanza body to a 32-byte array
(`s.body[..].try_into()` in from_stanza). -/
def bodyTryInto (body : List Nat) : Option (List Nat) :=
  if body.length = ENCRYPTED_FILE_KEY_BYTES then some body else none

/-- The final three-way match inside from_stanza: all three components
present assembles the line, anything else is the structural error. -/
def assembleLine :
    Option (List Nat) → Option EphemeralKeyBytes → Option (List Nat) →
      Except Unit RecipientLine
  | some tag, some epk, some efk =>
    Except.ok { tag := tag, epk_bytes := epk, encrypted_file_key := efk }
  | _, _, _ => Except.error ()

/-- RecipientLine::from_stanza in `format.rs`. `none` is the not-mine
outcome, `some (Except.error ())` the malformed outcome, and
`some (Except.ok line)` the successful parse. -/
def RecipientLine.from_stanza (s : Stanza) : Option (Except Unit RecipientLine) :=
  if s.tag ≠ STANZA_TAG then none
  else
    some (assembleLine (fromStanzaArgs s.args).1 (fromStanzaArgs s.args).2
      (bodyTryInto s.body))

/-- Modelled from the spec: the collaborator cryptographic primitives
(`age_core::primitives`): `derive(salt, label, inputKeyMaterial) -> key`
and `seal(key, plaintext) -> ciphertext`, where the AEAD ciphertext of a
16-byte plaintext is the plaintext length plus the fixed tag overhead,
32 bytes in all. -/
structure Primitives where
  hkdf : List Nat → List Nat → List Nat → List Nat
  aead_encrypt : List Nat → List Nat → List Nat
  aead_encrypt_len : ∀ key pt, pt.length = 16 → (aead_encrypt key pt).length = 32

/-- Modelled from the spec: the recipient public-key capability (the
crate's `Recipient` type, declared outside `src/format.rs`): its underlying
curve point, its canonical encoded-point bytes, and its 4-byte identifying
tag. -/
structure Recipient where
  public_key : PublicKey
  to_encoded : List Nat
  tag : List Nat
  tag_len : tag.length = 4
  tag_bytes : ∀ b ∈ tag, b < 256

/-- Modelled from the spec: a freshly generated ephemeral key pair, passed
in explicitly (the spec directs that the ambient secure random source be
modelled as an explicit randomness-provider parameter); it exposes its
public half and its Diffie-Hellman capability returning the shared-secret
bytes. -/
structure EphemeralSecret where
  public_key : PublicKey
  diffie_hellman : PublicKey → List Nat

/-- Copy of a byte slice into the fixed 32-byte `encrypted_file_key` buffer
(`copy_from_slice` in wrap_file_key); `none` models the length-mismatch
panic. -/
def copyFromSlice32 (src : List Nat) : Option (List Nat) :=
  if src.length = ENCRYPTED_FILE_KEY_BYTES then some src else none

/-- RecipientLine::wrap_file_key in `format.rs`, with the ephemeral secret
and the primitive suite passed explicitly; `none` models a panic. The salt
is the compressed ephemeral key bytes followed by the recipient's encoded
point; the HKDF label is `STANZA_KEY_LABEL`; the input key material is the
ECDH shared secret. -/
def RecipientLine.wrap_file_key (prims : Primitives) (esk : EphemeralSecret)
    (file_key : List Nat) (pk : Recipient) : Option RecipientLine :=
  let epk := esk.public_key
  let epk_bytes := EphemeralKeyBytes.from_public_key epk
  let shared_secret := esk.diffie_hellman pk.public_key
  let salt := epk_bytes.bytes ++ pk.to_encoded
  let enc_key := prims.hkdf salt STANZA_KEY_LABEL shared_secret
  (copyFromSlice32 (prims.aead_encrypt enc_key file_key)).map
    fun encrypted_file_key =>
      { tag := pk.tag, epk_bytes := epk_bytes,
        encrypted_file_key := encrypted_file_key }

/-- Decidability of the curve equation, by computation in the field. -/
instance (x y : Nat) : Decidable (onCurve x y) :=
  inferInstanceAs (Decidable (y * y % p256P = curveRhs x))

/-- Decidability of decompressibility, by computation in the field. -/
instance (x : Nat) : Decidable (xDecompressible x) :=
  inferInstanceAs
    (Decidable (sqrtCand (curveRhs x) * sqrtCand (curveRhs x) % p256P = curveRhs x))

/-- The x-coordinate of the P-256 base point, used as a concrete test point. -/
def gX : Nat := 0x6b17d1f2e12c4247f8bce6e563a440f277037d812deb33a0f4a13945d898c296

/-- The y-coordinate of the P-256 base point. -/
def gY : Nat := 0x4fe342e2fe1a7f9b8ee7eb4a7c0f9e162bce33576b315ececbb6406837bf51f5

/-- The P-256 base point as a concrete `PublicKey`. -/
def gPoint : PublicKey where
  x := gX
  y := gY
  hx := by decide
  hy := by decide
  hcurve := by decide
  hdec := by decide

/-- Concrete primitive suite for tests: constant key derivation and a
constant 32-byte AEAD output. -/
def wPrims : Primitives where
  hkdf := fun _ _ _ => List.replicate 32 0
  aead_encrypt := fun _ _ => List.replicate 32 0
  aead_encrypt_len := fun _ _ _ => by simp

/-- Concrete test recipient built on the base point. -/
def wRecipient : Recipient where
  public_key := gPoint
  to_encoded := 4 :: (natToBytesBE 32 gX ++ natToBytesBE 32 gY)
  tag := [1, 2, 3, 4]
  tag_len := rfl
  tag_bytes := by decide

/-- Concrete test ephemeral secret built on the base point, with a constant
shared secret. -/
def wEsk : EphemeralSecret where
  public_key := gPoint
  diffie_hellman := fun _ => List.replicate 32 7

/-- Concrete 16-byte test file key. -/
def wFileKey : List Nat := List.replicate 16 0

/-- The recipient line produced by wrapping `wFileKey` for `wRecipient`
with the concrete suite. -/
def wLine : RecipientLine where
  tag := [1, 2, 3, 4]
  epk_bytes := EphemeralKeyBytes.from_public_key gPoint
  encrypted_file_key := List.replicate 32 0

/-- The compressed encoding of the base point, a concrete valid input for
point validation. -/
def wGBytes : List Nat := (2 + gY % 2) :: natToBytesBE 32 gX

/-- A syntactically well-formed compressed encoding (sign byte 2, 32
x-coordinate bytes) of x = 1, which is not the x-coordinate of any P-256
point: the curve equation right-hand side at 1 is a non-residue. -/
def wBadPoint : List Nat := 2 :: (List.replicate 31 0 ++ [1])

/-! Basic lemmas about the byte-level codecs. -/

theorem decodeChar_encodeSextet : ∀ n, n < 64 → decodeChar (encodeSextet n) = some n := by
  decide

theorem powModAux_lt (fuel : Nat) : ∀ b e m, 2 ≤ m → powModAux fuel b e m < m := by
  induction fuel with
  | zero => intro b e m hm; simpa [powModAux] using hm
  | succ fuel ih =>
    intro b e m hm
    simp only [powModAux]
    split
    · omega
    · split
      · exact Nat.mod_lt _ (by omega)
      · exact ih _ _ _ hm

theorem sqrtCand_lt (a : Nat) : sqrtCand a < p256P := by
  have h2 : (2 : Nat) ≤ p256P := by unfold p256P; omega
  show powModAux 300 a ((p256P + 1) / 4) p256P < p256P
  exact powModAux_lt 300 a _ _ h2


theorem base64Encode_length (bs : List Nat) :
    (base64Encode bs).length = (4 * bs.length + 2) / 3 := by
  induction bs using base64Encode.induct with
  | case1 b1 b2 b3 rest ih =>
    simp only [base64Encode, List.length_cons, ih]
    omega
  | case2 b1 b2 => simp [base64Encode]
  | case3 b1 => simp [base64Encode]
  | case4 => simp [base64Encode]

theorem base64Decode_base64Encode :
    ∀ bs : List Nat, (∀ b ∈ bs, b < 256) → base64Decode (base64Encode bs) = some bs := by
  intro bs
  induction bs using base64Encode.induct with
  | case1 b1 b2 b3 rest ih =>
    intro h
    have h1 : b1 < 256 := h b1 (by simp)
    have h2 : b2 < 256 := h b2 (by simp)
    have h3 : b3 < 256 := h b3 (by simp)
    have hrest := ih fun b hb => h b (by simp [hb])
    have e1 := decodeChar_encodeSextet ((b1 * 65536 + b2 * 256 + b3) / 262144) (by omega)
    have e2 := decodeChar_encodeSextet ((b1 * 65536 + b2 * 256 + b3) / 4096 % 64) (by omega)
    have e3 := decodeChar_encodeSextet ((b1 * 65536 + b2 * 256 + b3) / 64 % 64) (by omega)
    have e4 := decodeChar_encodeSextet ((b1 * 65536 + b2 * 256 + b3) % 64) (by omega)
    simp only [base64Encode, base64Decode, e1, e2, e3, e4, hrest, Option.map_some',
      Option.some.injEq, List.cons.injEq]
    refine ⟨?_, ?_, ?_, trivial⟩ <;> omega
  | case2 b1 b2 =>
    intro h
    have h1 : b1 < 256 := h b1 (by simp)
    have h2 : b2 < 256 := h b2 (by simp)
    have e1 := decodeChar_encodeSextet ((b1 * 256 + b2) / 1024) (by omega)
    have e2 := decodeChar_encodeSextet ((b1 * 256 + b2) / 16 % 64) (by omega)
    have e3 := decodeChar_encodeSextet ((b1 * 256 + b2) % 16 * 4) (by omega)
    simp only [base64Encode, base64Decode, e1, e2, e3]
    rw [if_pos (by omega)]
    simp only [Option.some.injEq, List.cons.injEq]
    refine ⟨?_, ?_, trivial⟩ <;> omega
  | case3 b1 =>
    intro h
    have h1 : b1 < 256 := h b1 (by simp)
    have e1 := decodeChar_encodeSextet (b1 / 4) (by omega)
    have e2 := decodeChar_encodeSextet (b1 % 4 * 16) (by omega)
    simp only [base64Encode, base64Decode, e1, e2]
    rw [if_pos (by omega)]
    simp only [Option.some.injEq, List.cons.injEq]
    refine ⟨?_, trivial⟩
    omega
  | case4 => intro _; simp [base64Encode, base64Decode]

theorem base64Decode_length_shape :
    ∀ cs ds : List Nat, base64Decode cs = some ds →
      (cs.length % 4 = 0 ∧ ds.length = 3 * (cs.length / 4)) ∨
      (cs.length % 4 = 2 ∧ ds.length = 3 * (cs.length / 4) + 1) ∨
      (cs.length % 4 = 3 ∧ ds.length = 3 * (cs.length / 4) + 2) := by
  intro cs
  induction cs using base64Decode.induct with
  | case1 =>
    intro ds h
    simp only [base64Decode, Option.some.injEq] at h
    subst h
    simp
  | case2 head =>
    intro ds h
    simp [base64Decode] at h
  | case3 c1 c2 d1 d2 hc2 hc1 hmod =>
    intro ds h
    simp only [base64Decode, hc1, hc2, if_pos hmod, Option.some.injEq] at h
    subst h
    simp
  | case4 c1 c2 d1 d2 hc2 hc1 hmod =>
    intro ds h
    simp only [base64Decode, hc1, hc2, if_neg hmod] at h
    exact Option.noConfusion h
  | case5 c1 c2 hf =>
    intro ds h
    rcases hc1 : decodeChar c1 with _ | d1 <;> rcases hc2 : decodeChar c2 with _ | d2 <;>
      simp only [base64Decode, hc1, hc2] at h <;>
      first
      | exact Option.noConfusion h
      | exact (hf _ _ hc1 hc2).elim
  | case6 c1 c2 c3 d1 d2 d3 hc3 hc2 hc1 hmod =>
    intro ds h
    simp only [base64Decode, hc1, hc2, hc3, if_pos hmod, Option.some.injEq] at h
    subst h
    simp
  | case7 c1 c2 c3 d1 d2 d3 hc3 hc2 hc1 hmod =>
    intro ds h
    simp only [base64Decode, hc1, hc2, hc3, if_neg hmod] at h
    exact Option.noConfusion h
  | case8 c1 c2 c3 hf =>
    intro ds h
    rcases hc1 : decodeChar c1 with _ | d1 <;> rcases hc2 : decodeChar c2 with _ | d2 <;>
      rcases hc3 : decodeChar c3 with _ | d3 <;>
      simp only [base64Decode, hc1, hc2, hc3] at h <;>
      first
      | exact Option.noConfusion h
      | exact (hf _ _ _ hc1 hc2 hc3).elim
  | case9 c1 c2 c3 c4 rest d1 d2 d3 d4 hc4 hc3 hc2 hc1 ih =>
    intro ds h
    simp only [base64Decode, hc1, hc2, hc3, hc4] at h
    rcases hr : base64Decode rest with _ | tail <;> rw [hr] at h
    · simp at h
    · simp only [Option.map_some', Option.some.injEq] at h
      subst h
      rcases ih tail hr with ⟨hm, hl⟩ | ⟨hm, hl⟩ | ⟨hm, hl⟩ <;>
        simp only [List.length_cons] <;> omega
  | case10 c1 c2 c3 c4 rest hf =>
    intro ds h
    rcases hc1 : decodeChar c1 with _ | d1 <;> rcases hc2 : decodeChar c2 with _ | d2 <;>
      rcases hc3 : decodeChar c3 with _ | d3 <;> rcases hc4 : decodeChar c4 with _ | d4 <;>
      simp only [base64Decode, hc1, hc2, hc3, hc4] at h <;>
      first
      | exact Option.noConfusion h
      | exact (hf _ _ _ _ hc1 hc2 hc3 hc4).elim

theorem base64Decode_preflight_length (n : Nat) (cs ds : List Nat)
    (hlen : cs.length = (4 * n + 2) / 3) (h : base64Decode cs = some ds) :
    ds.length = n := by
  rcases base64Decode_length_shape cs ds h with ⟨hm, hl⟩ | ⟨hm, hl⟩ | ⟨hm, hl⟩ <;> omega

theorem natToBytesBE_length (len : Nat) : ∀ n, (natToBytesBE len n).length = len := by
  induction len with
  | zero => intro n; simp [natToBytesBE]
  | succ len ih => intro n; simp [natToBytesBE, ih]

theorem natToBytesBE_lt (len : Nat) : ∀ n, ∀ b ∈ natToBytesBE len n, b < 256 := by
  induction len with
  | zero => intro n; simp [natToBytesBE]
  | succ len ih =>
    intro n b hb
    simp only [natToBytesBE, List.mem_append, List.mem_singleton] at hb
    rcases hb with hb | hb
    · exact ih _ b hb
    · subst hb; exact Nat.mod_lt _ (by omega)

theorem bytesToNatBE_append_one (l : List Nat) (b : Nat) :
    bytesToNatBE (l ++ [b]) = bytesToNatBE l * 256 + b := by
  simp [bytesToNatBE, List.foldl_append]

theorem bytesToNatBE_natToBytesBE (len : Nat) :
    ∀ n, n < 256 ^ len → bytesToNatBE (natToBytesBE len n) = n := by
  induction len with
  | zero =>
    intro n h
    simp only [pow_zero, Nat.lt_one_iff] at h
    simp [natToBytesBE, bytesToNatBE, h]
  | succ len ih =>
    intro n h
    have hdiv : n / 256 < 256 ^ len := by
      apply Nat.div_lt_of_lt_mul
      calc n < 256 ^ (len + 1) := h
        _ = 256 * 256 ^ len := by ring
    simp only [natToBytesBE, bytesToNatBE_append_one, ih _ hdiv]
    omega

theorem sub_sq_mod (s : Nat) (hs : s ≤ p256P) :
    (p256P - s) * (p256P - s) % p256P = s * s % p256P := by
  zify [hs]
  have h : ((p256P : Int) - s) * ((p256P : Int) - s) =
      (s : Int) * s + (p256P : Int) * ((p256P : Int) - 2 * s) := by ring
  rw [h, Int.add_mul_emod_self_left]

theorem decompressPoint_onCurve (bytes : List Nat) (x y : Nat)
    (h : decompressPoint bytes = some (x, y)) : x < p256P ∧ onCurve x y := by
  rcases bytes with _ | ⟨t, xs⟩
  · exact Option.noConfusion h
  · simp only [decompressPoint] at h
    split at h
    · split at h
      · split at h
        · rename_i hlt hsq
          simp only [Option.some.injEq, Prod.mk.injEq] at h
          obtain ⟨hx, hy⟩ := h
          refine ⟨hx ▸ hlt, ?_⟩
          unfold onCurve
          rw [← hx, ← hy]
          split
          · exact hsq
          · have hslt : sqrtCand (curveRhs (bytesToNatBE xs)) < p256P := sqrtCand_lt _
            rcases Nat.eq_zero_or_pos (sqrtCand (curveRhs (bytesToNatBE xs))) with hz | hpos
            · rw [hz] at hsq ⊢
              simp only [Nat.sub_zero, Nat.mod_self]
              simpa using hsq
            · have hppos : 0 < p256P := by unfold p256P; omega
              rw [Nat.mod_eq_of_lt
                (show p256P - sqrtCand (curveRhs (bytesToNatBE xs)) < p256P by omega)]
              rw [sub_sq_mod _ (le_of_lt hslt)]
              exact hsq
        · exact Option.noConfusion h
      · exact Option.noConfusion h
    · exact Option.noConfusion h

theorem decompressPoint_from_public_key (pk : PublicKey) :
    (decompressPoint ((2 + pk.y % 2) :: natToBytesBE 32 pk.x)).isSome := by
  have hx256 : pk.x < 256 ^ 32 := by
    have := pk.hx
    have hle : p256P ≤ 256 ^ 32 := by unfold p256P; norm_num
    omega
  have hroundtrip := bytesToNatBE_natToBytesBE 32 pk.x hx256
  have hp : 2 + pk.y % 2 = 2 ∨ 2 + pk.y % 2 = 3 := by omega
  have hdec := pk.hdec
  unfold xDecompressible at hdec
  simp only [decompressPoint, hroundtrip]
  rw [if_pos ⟨hp, natToBytesBE_length 32 pk.x⟩, if_pos pk.hx, if_pos hdec]
  simp

theorem from_bytes_from_public_key (pk : PublicKey) :
    EphemeralKeyBytes.from_bytes ((2 + pk.y % 2) :: natToBytesBE 32 pk.x) =
      some (EphemeralKeyBytes.from_public_key pk) := by
  have hp : 2 + pk.y % 2 = 2 ∨ 2 + pk.y % 2 = 3 := by omega
  have hcomp : isCompressed ((2 + pk.y % 2) :: natToBytesBE 32 pk.x) = true := by
    rcases hp with h | h <;> simp [isCompressed, h]
  have hdec := decompressPoint_from_public_key pk
  have hsec : sec1FromBytes ((2 + pk.y % 2) :: natToBytesBE 32 pk.x) =
      some ((2 + pk.y % 2) :: natToBytesBE 32 pk.x) := by
    simp only [sec1FromBytes]
    rw [if_neg (by rintro ⟨h0, _⟩; omega), if_pos ⟨hp, natToBytesBE_length 32 pk.x⟩]
  unfold EphemeralKeyBytes.from_bytes
  rw [hsec]
  simp only [Option.some_bind, hcomp, hdec, Bool.and_self, if_true]
  rfl

theorem base64_arg_encode (bs : List Nat) (n : Nat) (hlen : bs.length = n)
    (hb : ∀ b ∈ bs, b < 256) : base64_arg (base64Encode bs) n = some bs := by
  unfold base64_arg base64ArgWith
  rw [if_neg (by simp [base64Encode_length, hlen])]
  rw [base64Decode_base64Encode bs hb]
  simp [hlen]

theorem base64ArgWith_wrong_length (dec : List Nat → Option (List Nat))
    (arg : List Nat) (n : Nat) (h : arg.length ≠ (4 * n + 2) / 3) :
    base64ArgWith dec arg n = none := by
  unfold base64ArgWith
  rw [if_pos h]

theorem base64_arg_right_length (arg : List Nat) (n : Nat)
    (h : arg.length = (4 * n + 2) / 3) :
    (base64_arg arg n = none ↔ base64Decode arg = none) := by
  unfold base64_arg base64ArgWith
  rw [if_neg (by simp [h])]
  rcases hdec : base64Decode arg with _ | ds
  · simp
  · have hfit := base64Decode_preflight_length n arg ds h hdec
    simp [hfit]

/-- The structural gates of a tag-matching stanza, exactly as the spec lists
them: exactly two arguments, a first argument passing the length preflight
and base64 decoding for 4 bytes, a second argument passing the preflight,
decoding and point validation for 33 bytes, and a 32-byte body. -/
def structurallyValid (s : Stanza) : Prop :=
  (∃ a1 a2, s.args = [a1, a2] ∧ (base64_arg a1 TAG_BYTES).isSome ∧
    ((base64_arg a2 EPK_BYTES).bind EphemeralKeyBytes.from_bytes).isSome) ∧
  s.body.length = ENCRYPTED_FILE_KEY_BYTES

theorem assembleLine_ok (a : Option (List Nat)) (b : Option EphemeralKeyBytes)
    (c : Option (List Nat)) (r : RecipientLine)
    (h : assembleLine a b c = Except.ok r) :
    a = some r.tag ∧ b = some r.epk_bytes ∧ c = some r.encrypted_file_key := by
  rcases a with _ | ta <;> rcases b with _ | tb <;> rcases c with _ | tc <;>
    simp [assembleLine] at h
  rw [← h]
  exact ⟨rfl, rfl, rfl⟩

theorem fromStanzaArgs_shape (args : List (List Nat)) :
    (∃ a1 a2, args = [a1, a2]) ∨ fromStanzaArgs args = (none, none) := by
  rcases args with _ | ⟨a1, _ | ⟨a2, _ | _⟩⟩ <;> simp [fromStanzaArgs]

theorem from_stanza_matched (s : Stanza) (htag : s.tag = STANZA_TAG) :
    (structurallyValid s → ∃ r, RecipientLine.from_stanza s = some (Except.ok r)) ∧
    (¬ structurallyValid s → RecipientLine.from_stanza s = some (Except.error ())) := by
  have hne : ¬ s.tag ≠ STANZA_TAG := by simp [htag]
  unfold RecipientLine.from_stanza
  rw [if_neg hne]
  constructor
  · rintro ⟨⟨a1, a2, hargs, h1, h2⟩, hbody⟩
    rcases ho1 : base64_arg a1 TAG_BYTES with _ | t1
    · rw [ho1] at h1; simp at h1
    rcases ho2 : (base64_arg a2 EPK_BYTES).bind EphemeralKeyBytes.from_bytes with _ | e2
    · rw [ho2] at h2; simp at h2
    refine ⟨⟨t1, e2, s.body⟩, ?_⟩
    rw [hargs]
    simp [fromStanzaArgs, bodyTryInto, assembleLine, ho1, ho2, hbody]
  · intro hnv
    rcases hres : assembleLine (fromStanzaArgs s.args).1 (fromStanzaArgs s.args).2
        (bodyTryInto s.body) with u | r
    · rcases u
      rfl
    · exfalso
      apply hnv
      obtain ⟨ha, hb, hc⟩ := assembleLine_ok _ _ _ _ hres
      constructor
      · rcases fromStanzaArgs_shape s.args with ⟨a1, a2, hargs⟩ | hnone
        · refine ⟨a1, a2, hargs, ?_, ?_⟩
          · rw [hargs] at ha
            simp only [fromStanzaArgs] at ha
            rw [ha]
            rfl
          · rw [hargs] at hb
            simp only [fromStanzaArgs] at hb
            rw [hb]
            rfl
        · rw [hnone] at ha
          simp at ha
      · unfold bodyTryInto at hc
        by_contra hlen
        rw [if_neg hlen] at hc
        exact Option.noConfusion hc

theorem from_stanza_toStanza (r : RecipientLine)
    (htl : r.tag.length = TAG_BYTES) (htb : ∀ b ∈ r.tag, b < 256)
    (hel : r.epk_bytes.bytes.length = EPK_BYTES)
    (heb : ∀ b ∈ r.epk_bytes.bytes, b < 256)
    (hfb : EphemeralKeyBytes.from_bytes r.epk_bytes.bytes = some r.epk_bytes)
    (hbl : r.encrypted_file_key.length = ENCRYPTED_FILE_KEY_BYTES) :
    RecipientLine.from_stanza r.toStanza = some (Except.ok r) := by
  unfold RecipientLine.from_stanza RecipientLine.toStanza
  rw [if_neg (by simp)]
  simp only [fromStanzaArgs]
  rw [base64_arg_encode r.tag TAG_BYTES htl htb,
    base64_arg_encode r.epk_bytes.bytes EPK_BYTES hel heb]
  simp only [Option.some_bind, hfb, bodyTryInto, hbl, if_true, eq_self_iff_true,
    assembleLine]

theorem wrap_file_key_eq (prims : Primitives) (esk : EphemeralSecret)
    (file_key : List Nat) (pk : Recipient) (line : RecipientLine)
    (h : RecipientLine.wrap_file_key prims esk file_key pk = some line) :
    line.tag = pk.tag ∧
    line.epk_bytes = EphemeralKeyBytes.from_public_key esk.public_key ∧
    line.encrypted_file_key =
      prims.aead_encrypt
        (prims.hkdf ((EphemeralKeyBytes.from_public_key esk.public_key).bytes ++
            pk.to_encoded)
          STANZA_KEY_LABEL (esk.diffie_hellman pk.public_key))
        file_key ∧
    line.encrypted_file_key.length = ENCRYPTED_FILE_KEY_BYTES := by
  unfold RecipientLine.wrap_file_key at h
  dsimp only at h
  rcases hc : copyFromSlice32
      (prims.aead_encrypt
        (prims.hkdf ((EphemeralKeyBytes.from_public_key esk.public_key).bytes ++
            pk.to_encoded)
          STANZA_KEY_LABEL (esk.diffie_hellman pk.public_key))
        file_key) with _ | efk
  · rw [hc] at h
    exact Option.noConfusion h
  · rw [hc] at h
    simp only [Option.map_some', Option.some.injEq] at h
    unfold copyFromSlice32 at hc
    split at hc
    · rename_i hlen
      simp only [Option.some.injEq] at hc
      subst hc
      subst h
      exact ⟨rfl, rfl, rfl, hlen⟩
    · exact Option.noConfusion hc

/-- C1: for every 16-byte file key and valid recipient, the RecipientLine
produced by wrap_file_key converts to a Stanza that from_stanza parses back
successfully, reconstructing a line equal to the original — in particular
with the same 4-byte tag, 33-byte ephemeral-point bytes and 32-byte
ciphertext. -/
theorem wrap_toStanza_from_stanza_roundtrip (prims : Primitives)
    (esk : EphemeralSecret) (file_key : List Nat) (pk : Recipient)
    (line : RecipientLine)
    (h : RecipientLine.wrap_file_key prims esk file_key pk = some line) :
    line.tag.length = TAG_BYTES ∧ line.epk_bytes.bytes.length = EPK_BYTES ∧
    line.encrypted_file_key.length = ENCRYPTED_FILE_KEY_BYTES ∧
    RecipientLine.from_stanza line.toStanza = some (Except.ok line) := by
  obtain ⟨htag, hepk, hefk, hlen⟩ := wrap_file_key_eq prims esk file_key pk line h
  have htl : line.tag.length = TAG_BYTES := by rw [htag]; exact pk.tag_len
  have htb : ∀ b ∈ line.tag, b < 256 := htag ▸ pk.tag_bytes
  have hel : line.epk_bytes.bytes.length = EPK_BYTES := by
    rw [hepk]
    show ((2 + esk.public_key.y % 2) :: natToBytesBE 32 esk.public_key.x).length =
      EPK_BYTES
    simp [natToBytesBE_length, EPK_BYTES]
  have heb : ∀ b ∈ line.epk_bytes.bytes, b < 256 := by
    rw [hepk]
    intro b hb
    rcases List.mem_cons.mp hb with hb | hb
    · have h2 : esk.public_key.y % 2 < 2 := Nat.mod_lt _ (by omega)
      omega
    · exact natToBytesBE_lt 32 _ b hb
  have hfbb : EphemeralKeyBytes.from_bytes line.epk_bytes.bytes = some line.epk_bytes := by
    rw [hepk]
    exact from_bytes_from_public_key esk.public_key
  exact ⟨htl, hel, hlen, from_stanza_toStanza line htl htb hel heb hfbb hlen⟩

/-- Witness for C1: wrapping the all-zero 16-byte file key for the concrete
base-point recipient with the concrete primitive suite yields `wLine`, and
the round trip through the stanza form reconstructs it exactly. -/
theorem wrap_toStanza_from_stanza_roundtrip_witness :
    RecipientLine.wrap_file_key wPrims wEsk wFileKey wRecipient = some wLine ∧
    (wLine.tag.length = TAG_BYTES ∧ wLine.epk_bytes.bytes.length = EPK_BYTES ∧
     wLine.encrypted_file_key.length = ENCRYPTED_FILE_KEY_BYTES ∧
     RecipientLine.from_stanza wLine.toStanza = some (Except.ok wLine)) :=
  ⟨rfl, wrap_toStanza_from_stanza_roundtrip wPrims wEsk wFileKey wRecipient wLine rfl⟩

/-- C3: a stanza whose tag string differs from the fixed constant is
routed to the not-mine outcome, whatever its arguments and body. -/
theorem from_stanza_tag_mismatch (s : Stanza) (h : s.tag ≠ STANZA_TAG) :
    RecipientLine.from_stanza s = none := by
  unfold RecipientLine.from_stanza
  rw [if_pos h]

/-- Witness for C3: a concrete stanza with a different tag parses to
not-mine. -/
theorem from_stanza_tag_mismatch_witness :
    RecipientLine.from_stanza ⟨"other", [[1]], [2]⟩ = none :=
  from_stanza_tag_mismatch ⟨"other", [[1]], [2]⟩ (by decide)

/-- C9: wrap_file_key succeeds on every 16-byte file key: the AEAD output
of a 16-byte plaintext is exactly 32 bytes, so the copy into the fixed
ciphertext buffer cannot panic, and the trusted point construction is
total. -/
theorem wrap_file_key_isSome (prims : Primitives) (esk : EphemeralSecret)
    (file_key : List Nat) (pk : Recipient) (hfk : file_key.length = 16) :
    (RecipientLine.wrap_file_key prims esk file_key pk).isSome := by
  unfold RecipientLine.wrap_file_key
  dsimp only
  unfold copyFromSlice32
  split
  · rfl
  · rename_i hne
    exact absurd (prims.aead_encrypt_len _ _ hfk) hne

/-- Witness for C9: the concrete wrap succeeds on the all-zero 16-byte file
key. -/
theorem wrap_file_key_isSome_witness :
    (RecipientLine.wrap_file_key wPrims wEsk wFileKey wRecipient).isSome :=
  wrap_file_key_isSome wPrims wEsk wFileKey wRecipient (by decide)

/-- C2: for a stanza whose tag matches the fixed constant, from_stanza
returns the malformed outcome exactly when a structural gate fails (wrong
argument count, an argument failing its preflight or decoding, point
validation failing, or a body that is not 32 bytes), returns a
reconstructed line when all gates pass, and never returns the not-mine
outcome. -/
theorem from_stanza_three_way (s : Stanza) (htag : s.tag = STANZA_TAG) :
    (RecipientLine.from_stanza s = some (Except.error ()) ↔ ¬ structurallyValid s) ∧
    (structurallyValid s → ∃ r, RecipientLine.from_stanza s = some (Except.ok r)) ∧
    RecipientLine.from_stanza s ≠ none := by
  obtain ⟨hok, herr⟩ := from_stanza_matched s htag
  refine ⟨⟨?_, herr⟩, hok, ?_⟩
  · intro he hv
    obtain ⟨r, hr⟩ := hok hv
    rw [he] at hr
    simp at hr
  · intro hn
    by_cases hv : structurallyValid s
    · obtain ⟨r, hr⟩ := hok hv
      rw [hn] at hr
      exact Option.noConfusion hr
    · rw [herr hv] at hn
      exact Option.noConfusion hn

/-- Witness for C2: the three-way characterisation instantiated at the
concrete serialised form of `wLine`, whose tag matches. -/
theorem from_stanza_three_way_witness :
    (RecipientLine.from_stanza wLine.toStanza = some (Except.error ()) ↔
      ¬ structurallyValid wLine.toStanza) ∧
    (structurallyValid wLine.toStanza →
      ∃ r, RecipientLine.from_stanza wLine.toStanza = some (Except.ok r)) ∧
    RecipientLine.from_stanza wLine.toStanza ≠ none :=
  from_stanza_three_way wLine.toStanza rfl

/-- C5: an argument whose character count differs from (4N+2)/3 is rejected
with no call to the decoder (stated for an arbitrary decoder); an argument
of the correct length is rejected exactly when base64 decoding fails; and
the preflight counts are 6 characters for the 4-byte tag and 44 for the
33-byte point. -/
theorem base64_arg_preflight :
    (∀ dec : List Nat → Option (List Nat), ∀ arg : List Nat, ∀ n : Nat,
      arg.length ≠ (4 * n + 2) / 3 → base64ArgWith dec arg n = none) ∧
    (∀ arg : List Nat, ∀ n : Nat, arg.length = (4 * n + 2) / 3 →
      (base64_arg arg n = none ↔ base64Decode arg = none)) ∧
    (4 * TAG_BYTES + 2) / 3 = 6 ∧ (4 * EPK_BYTES + 2) / 3 = 44 :=
  ⟨base64ArgWith_wrong_length, base64_arg_right_length, rfl, rfl⟩

/-- Witness for C5: a five-character argument for the 4-byte tag slot is
rejected even under a decoder that accepts everything, and a six-character
argument containing a padding character is rejected exactly because the
decoder rejects it. -/
theorem base64_arg_preflight_witness :
    base64ArgWith (fun _ => some []) [65, 65, 65, 65, 65] 4 = none ∧
    (base64_arg [61, 61, 61, 61, 61, 61] 4 = none ↔
      base64Decode [61, 61, 61, 61, 61, 61] = none) :=
  ⟨base64_arg_preflight.1 (fun _ => some []) [65, 65, 65, 65, 65] 4 (by decide),
   base64_arg_preflight.2.1 [61, 61, 61, 61, 61, 61] 4 (by decide)⟩

/-- C10: from_stanza is total — every stanza whatsoever lands in exactly
one of the three outcomes — and the length preflight guarantees that a
successful decode fills the fixed buffer exactly, so the decode can never
write out of bounds. -/
theorem from_stanza_total :
    (∀ s : Stanza, RecipientLine.from_stanza s = none ∨
      RecipientLine.from_stanza s = some (Except.error ()) ∨
      ∃ r, RecipientLine.from_stanza s = some (Except.ok r)) ∧
    (∀ arg : List Nat, ∀ n : Nat, ∀ ds : List Nat,
      arg.length = (4 * n + 2) / 3 → base64Decode arg = some ds →
      ds.length = n) := by
  constructor
  · intro s
    rcases h : RecipientLine.from_stanza s with _ | e
    · exact Or.inl rfl
    · rcases e with u | r
      · rcases u
        exact Or.inr (Or.inl rfl)
      · exact Or.inr (Or.inr ⟨r, rfl⟩)
  · exact fun arg n ds h1 h2 => base64Decode_preflight_length n arg ds h1 h2

/-- Witness for C10: totality at a zero-argument stanza with matching tag,
and exact buffer fit for a concrete two-character argument decoding to one
byte. -/
theorem from_stanza_total_witness :
    (RecipientLine.from_stanza ⟨"piv-p256", [], []⟩ = none ∨
      RecipientLine.from_stanza ⟨"piv-p256", [], []⟩ = some (Except.error ()) ∨
      ∃ r, RecipientLine.from_stanza ⟨"piv-p256", [], []⟩ = some (Except.ok r)) ∧
    (1 : Nat) = 1 ∧ [(0 : Nat)].length = 1 :=
  ⟨from_stanza_total.1 ⟨"piv-p256", [], []⟩,
   rfl, from_stanza_total.2 [65, 65] 1 [0] (by decide) (by decide)⟩

theorem sec1FromBytes_33 (t : Nat) (xs : List Nat) (hlen : xs.length = 32) :
    sec1FromBytes (t :: xs) = if t = 2 ∨ t = 3 then some (t :: xs) else none := by
  simp only [sec1FromBytes]
  rw [if_neg (by rintro ⟨_, h0⟩; omega)]
  by_cases h23 : t = 2 ∨ t = 3
  · rw [if_pos ⟨h23, hlen⟩, if_pos h23]
  · rw [if_neg (by rintro ⟨h, _⟩; exact h23 h), if_neg h23,
      if_neg (by rintro ⟨_, h64⟩; omega)]

theorem from_bytes_33_iff (t : Nat) (xs : List Nat) (hlen : xs.length = 32) :
    (EphemeralKeyBytes.from_bytes (t :: xs)).isSome ↔
      ((t = 2 ∨ t = 3) ∧ (decompressPoint (t :: xs)).isSome) := by
  unfold EphemeralKeyBytes.from_bytes
  rw [sec1FromBytes_33 t xs hlen]
  by_cases h23 : t = 2 ∨ t = 3
  · rw [if_pos h23]
    have hcomp : isCompressed (t :: xs) = true := by
      rcases h23 with h | h <;> simp [isCompressed, h]
    simp only [Option.some_bind, hcomp, Bool.true_and]
    by_cases hd : (decompressPoint (t :: xs)).isSome
    · simp [hd, h23]
    · simp [hd, h23]
  · rw [if_neg h23]
    simp [h23]

/-- C4: a 33-byte input passes EphemeralKeyBytes::from_bytes exactly when
it is a structurally valid SEC1 compressed encoding (sign byte 2 or 3 over
a 32-byte x-coordinate) whose decompression succeeds, and a successful
decompression always lands on the curve with a canonical x-coordinate —
so a well-formed encoding of an off-curve x, or a 33-byte identity-tagged
encoding, is rejected. -/
theorem from_bytes_valid_iff (bytes : List Nat) (hlen : bytes.length = 33) :
    ((EphemeralKeyBytes.from_bytes bytes).isSome ↔
      (∃ t xs, bytes = t :: xs ∧ (t = 2 ∨ t = 3) ∧ xs.length = 32 ∧
        (decompressPoint bytes).isSome)) ∧
    (∀ x y, decompressPoint bytes = some (x, y) → x < p256P ∧ onCurve x y) := by
  rcases bytes with _ | ⟨t, xs⟩
  · simp at hlen
  · have hxs : xs.length = 32 := by simpa using hlen
    constructor
    · rw [from_bytes_33_iff t xs hxs]
      constructor
      · rintro ⟨h23, hdec⟩
        exact ⟨t, xs, rfl, h23, hxs, hdec⟩
      · rintro ⟨t2, xs2, heq, h23, hx2, hdec⟩
        injection heq with h1 h2
        subst h1
        subst h2
        exact ⟨h23, hdec⟩
    · intro x y h
      exact decompressPoint_onCurve _ x y h

/-- Witness for C4: the well-formed 33-byte compressed encoding of x = 1 is
rejected (its curve right-hand side is a non-residue), and the
characterisation holds at that input. -/
theorem from_bytes_valid_iff_witness :
    EphemeralKeyBytes.from_bytes wBadPoint = none ∧
    (((EphemeralKeyBytes.from_bytes wBadPoint).isSome ↔
      (∃ t xs, wBadPoint = t :: xs ∧ (t = 2 ∨ t = 3) ∧ xs.length = 32 ∧
        (decompressPoint wBadPoint).isSome)) ∧
    (∀ x y, decompressPoint wBadPoint = some (x, y) → x < p256P ∧ onCurve x y)) :=
  ⟨by decide, from_bytes_valid_iff wBadPoint (by decide)⟩

/-- C6: decompress never reaches its panic branch: every EphemeralKeyBytes
obtained through from_bytes (the untrusted path) or through
from_public_key (the trusted path) decompresses successfully. -/
theorem decompress_never_panics :
    (∀ bytes : List Nat, ∀ e : EphemeralKeyBytes,
      EphemeralKeyBytes.from_bytes bytes = some e → e.decompress.isSome) ∧
    (∀ pk : PublicKey, (EphemeralKeyBytes.from_public_key pk).decompress.isSome) := by
  constructor
  · intro bytes e h
    unfold EphemeralKeyBytes.from_bytes at h
    rcases hs : sec1FromBytes bytes with _ | enc
    · rw [hs] at h
      exact Option.noConfusion h
    · rw [hs] at h
      simp only [Option.some_bind] at h
      split at h
      · rename_i hcond
        simp only [Option.some.injEq] at h
        subst h
        show (decompressPoint enc).isSome = true
        simp only [Bool.and_eq_true] at hcond
        exact hcond.2
      · exact Option.noConfusion h
  · intro pk
    show (decompressPoint ((2 + pk.y % 2) :: natToBytesBE 32 pk.x)).isSome = true
    exact decompressPoint_from_public_key pk

/-- Witness for C6: the compressed base point passes from_bytes and then
decompresses, and the trusted path decompresses for the concrete base
point. -/
theorem decompress_never_panics_witness :
    (EphemeralKeyBytes.decompress ⟨wGBytes⟩).isSome ∧
    (EphemeralKeyBytes.from_public_key gPoint).decompress.isSome :=
  ⟨decompress_never_panics.1 wGBytes ⟨wGBytes⟩ (by decide),
   decompress_never_panics.2 gPoint⟩

/-- C7: wrap_file_key derives the AEAD key through the key-derivation
primitive with salt equal to the 33 compressed ephemeral-key bytes
followed by the recipient's canonical encoded-point bytes, with the fixed
label "piv-p256", and with the ECDH shared secret as input key material;
the line's ciphertext is the AEAD sealing of the file key under that key
and its tag is the recipient's tag. -/
theorem wrap_file_key_steps (prims : Primitives) (esk : EphemeralSecret)
    (file_key : List Nat) (pk : Recipient) (line : RecipientLine)
    (h : RecipientLine.wrap_file_key prims esk file_key pk = some line) :
    STANZA_KEY_LABEL = ("piv-p256".toList.map Char.toNat) ∧
    line.tag = pk.tag ∧
    line.epk_bytes = EphemeralKeyBytes.from_public_key esk.public_key ∧
    line.encrypted_file_key =
      prims.aead_encrypt
        (prims.hkdf
          ((EphemeralKeyBytes.from_public_key esk.public_key).bytes ++
            pk.to_encoded)
          STANZA_KEY_LABEL (esk.diffie_hellman pk.public_key))
        file_key := by
  obtain ⟨h1, h2, h3, _⟩ := wrap_file_key_eq prims esk file_key pk line h
  exact ⟨by decide, h1, h2, h3⟩

/-- Witness for C7: the wrap pipeline equalities at the concrete suite. -/
theorem wrap_file_key_steps_witness :
    STANZA_KEY_LABEL = ("piv-p256".toList.map Char.toNat) ∧
    wLine.tag = wRecipient.tag ∧
    wLine.epk_bytes = EphemeralKeyBytes.from_public_key wEsk.public_key ∧
    wLine.encrypted_file_key =
      wPrims.aead_encrypt
        (wPrims.hkdf
          ((EphemeralKeyBytes.from_public_key wEsk.public_key).bytes ++
            wRecipient.to_encoded)
          STANZA_KEY_LABEL (wEsk.diffie_hellman wRecipient.public_key))
        wFileKey :=
  wrap_file_key_steps wPrims wEsk wFileKey wRecipient wLine rfl

/-- C8: the stanza produced from a RecipientLine carries the fixed tag,
exactly two arguments — the base64 no-pad encoding of the 4-byte tag then
the base64 no-pad encoding of the 33-byte point, 6 and 44 characters,
decoding back to the original bytes — and the raw 32-byte ciphertext as
body with no base64 applied. -/
theorem toStanza_layout (r : RecipientLine)
    (htl : r.tag.length = TAG_BYTES) (htb : ∀ b ∈ r.tag, b < 256)
    (hel : r.epk_bytes.bytes.length = EPK_BYTES)
    (heb : ∀ b ∈ r.epk_bytes.bytes, b < 256) :
    r.toStanza.tag = STANZA_TAG ∧
    r.toStanza.args = [base64Encode r.tag, base64Encode r.epk_bytes.bytes] ∧
    r.toStanza.args.length = 2 ∧
    base64Decode (base64Encode r.tag) = some r.tag ∧
    (base64Encode r.tag).length = 6 ∧
    base64Decode (base64Encode r.epk_bytes.bytes) = some r.epk_bytes.bytes ∧
    (base64Encode r.epk_bytes.bytes).length = 44 ∧
    r.toStanza.body = r.encrypted_file_key := by
  refine ⟨rfl, rfl, rfl, base64Decode_base64Encode _ htb, ?_,
    base64Decode_base64Encode _ heb, ?_, rfl⟩
  · rw [base64Encode_length, htl]
    decide
  · rw [base64Encode_length, hel]
    decide

/-- Witness for C8: the layout at the concrete line `wLine`. -/
theorem toStanza_layout_witness :
    wLine.toStanza.tag = STANZA_TAG ∧
    wLine.toStanza.args =
      [base64Encode wLine.tag, base64Encode wLine.epk_bytes.bytes] ∧
    wLine.toStanza.args.length = 2 ∧
    base64Decode (base64Encode wLine.tag) = some wLine.tag ∧
    (base64Encode wLine.tag).length = 6 ∧
    base64Decode (base64Encode wLine.epk_bytes.bytes) =
      some wLine.epk_bytes.bytes ∧
    (base64Encode wLine.epk_bytes.bytes).length = 44 ∧
    wLine.toStanza.body = wLine.encrypted_file_key :=
  toStanza_layout wLine (by decide) (by decide) (by decide) (by decide)
